import Mathlib

/-!
# Huffman coding (`exam.c`): embedding and verification

The C program builds a Huffman tree from the character frequencies of a string
and uses it to encode and decode strings of `'L'`/`'R'` path symbols.

Modelling conventions.

* A C string is the list of its characters before the terminating NUL
  (`List Char`); `strlen` is `List.length`.
* `int` is `Int`; the one addition of counts (`new_node`) wraps at 32 bits.
* The header `exam.h` is not part of the sources; the two struct types are
  reconstructed from the spec and from the field accesses in `exam.c`, and
  the constant `MAX_STRING_LENGTH` is an argument where a buffer of that size
  is filled.
* A linked list of trees is a `List`; a pointer that the code tests against
  `NULL` is an `Option`.
* Uninitialised memory.  A block returned by `malloc` holds whatever was there
  before.  Where the code reads a field or a buffer that it has not written,
  the function takes the stale contents as an argument: the `next` field of
  a list cell, the `left` and `right` fields of a leaf, the text of a
  character buffer.  A stale pointer is represented by the structure it points
  to (`none` or `[]` when it happens to be `NULL`).
-/

namespace Huffman

/-- Modelled from the spec: the struct behind `huffman_tree_t` is declared in
`exam.h`, which is not among the sources.  The spec gives a Tree a symbol, a
weight and two children owned by the node; the field names `count`, `letter`,
`left` and `right` are those `exam.c` reads and writes.  A child pointer is
`none` when it is `NULL`. -/
inductive huffman_tree_t : Type
  | mk (count : Int) (letter : Char) (left right : Option huffman_tree_t) : huffman_tree_t

namespace huffman_tree_t

/-- Field `t->count`. -/
def count : huffman_tree_t → Int
  | mk c _ _ _ => c

/-- Field `t->letter`. -/
def letter : huffman_tree_t → Char
  | mk _ l _ _ => l

/-- Field `t->left`. -/
def left : huffman_tree_t → Option huffman_tree_t
  | mk _ _ l _ => l

/-- Field `t->right`. -/
def right : huffman_tree_t → Option huffman_tree_t
  | mk _ _ _ r => r

end huffman_tree_t

open huffman_tree_t

/-- Modelled from the spec: `huffman_tree_list_t` is declared in `exam.h`, which is
not among the sources.  A Priority List entry wraps one Tree plus a `next` link;
the chain of cells, in order, is a list of trees. -/
abbrev huffman_tree_list_t := List huffman_tree_t

/-- Function `contains`: 1 if the string `s` contains the character `c`, 0 otherwise. -/
def contains : List Char → Char → Int
  | [], _ => 0
  | x :: s, c => if c = x then 1 else contains s c

/-- Function `frequency`: the number of occurrences of `c` in `s`. -/
def frequency : List Char → Char → Int
  | [], _ => 0
  | x :: s, c => if x = c then frequency s c + 1 else frequency s c

/-- The loop of `nub`: `acc` is the buffer built so far, the first argument is the
part of `s` still to be read. -/
def nub_loop : List Char → List Char → List Char
  | [], acc => acc
  | x :: s, acc => if contains acc x = 0 then nub_loop s (acc ++ [x]) else nub_loop s acc

/-- Function `nub`: the string of the distinct characters of `s`. -/
def nub (s : List Char) : List Char :=
  nub_loop s []

/-- Function `huffman_tree_list_add`.  The new cell gets its `tree` field; its `next`
field is written only when the cell is put before a cell with a strictly
greater count.  When `l` is `NULL`, and when the scan reaches the end of the
list, `next` keeps the value the block had: `stale_next` is the list that
value points to. -/
def huffman_tree_list_add (stale_next : huffman_tree_list_t) :
    huffman_tree_list_t → huffman_tree_t → huffman_tree_list_t
  | [], t => t :: stale_next
  | current :: next, t =>
    if t.count < current.count then t :: current :: next
    else current :: huffman_tree_list_add stale_next next t

/-- The tree block allocated in the loop body of `huffman_tree_list_build`: `count`
and `letter` are written, `left` and `right` keep the values the block had. -/
def new_leaf (stale_left stale_right : Option huffman_tree_t) (s : List Char) (current : Char) :
    huffman_tree_t :=
  mk (frequency s current) current stale_left stale_right

/-- What the two blocks allocated in one iteration of `huffman_tree_list_build` hold
in the fields that the code does not write: `left` and `right` of the tree
block, `next` of the list cell. -/
structure stale_fields where
  left : Option huffman_tree_t
  right : Option huffman_tree_t
  next : huffman_tree_list_t

/-- The loop of `huffman_tree_list_build`: `i` is the loop counter, `list` the list so
far, the last argument the part of `t` still to be read; `stale i` is what
`malloc` hands to iteration `i`. -/
def huffman_tree_list_build_loop (stale : Nat → stale_fields) (s : List Char) :
    Nat → huffman_tree_list_t → List Char → huffman_tree_list_t
  | _, list, [] => list
  | i, list, current :: t =>
    huffman_tree_list_build_loop stale s (i + 1)
      (huffman_tree_list_add (stale i).next list
        (new_leaf (stale i).left (stale i).right s current)) t

/-- Function `huffman_tree_list_build`: one tree block per character of `t`, in
order, each added to the list with `huffman_tree_list_add`. -/
def huffman_tree_list_build (stale : Nat → stale_fields) (s t : List Char) :
    huffman_tree_list_t :=
  huffman_tree_list_build_loop stale s 0 [] t

/-- Addition of two C `int`s as the machine performs it: 32 bits, two's
complement. -/
def int_add (a b : Int) : Int :=
  (a + b + 2147483648) % 4294967296 - 2147483648

/-- The `new_node` allocated in the loop body of `huffman_tree_list_reduce`; all four
fields are written. -/
def new_node (last_one next_one : huffman_tree_t) : huffman_tree_t :=
  mk (int_add last_one.count next_one.count) ' ' (some last_one) (some next_one)

/-- One pass through the `while` loop of `huffman_tree_list_reduce`: when the list
has at least two cells the body is run on the first two, otherwise the loop
has ended and the list is left as it is.  `stale_next` is the stale `next` of
the cell that `huffman_tree_list_add` allocates. -/
def huffman_tree_list_reduce_step (stale_next : huffman_tree_list_t) :
    huffman_tree_list_t → huffman_tree_list_t
  | last_one :: next_one :: rest =>
    huffman_tree_list_add stale_next rest (new_node last_one next_one)
  | l => l

/-- The `while` loop of `huffman_tree_list_reduce`, bounded by `fuel` iterations; `i`
counts the iterations done and `stale i` is the stale `next` of the cell
allocated in iteration `i`.  `none` means the bound was reached. -/
def huffman_tree_list_reduce_loop (stale : Nat → huffman_tree_list_t) :
    Nat → Nat → huffman_tree_list_t → Option huffman_tree_list_t
  | _, _, [] => some []
  | _, _, [last_one] => some [last_one]
  | 0, _, _ :: _ :: _ => none
  | fuel + 1, i, last_one :: next_one :: rest =>
    huffman_tree_list_reduce_loop stale fuel (i + 1)
      (huffman_tree_list_add (stale i) rest (new_node last_one next_one))

/-- Function `huffman_tree_list_reduce`, run for at most `fuel` iterations of its
loop.  On the empty list the code reads `l->next` through a `NULL` pointer:
the result is `none`; on a non-empty list `none` means that the loop has not
ended within `fuel` iterations. -/
def huffman_tree_list_reduce (stale : Nat → huffman_tree_list_t) (fuel : Nat)
    (l : huffman_tree_list_t) : Option huffman_tree_list_t :=
  match l with
  | [] => none
  | _ :: _ => huffman_tree_list_reduce_loop stale fuel 0 l

/-- Function `encode_traverse`.  The buffer `acc` is represented by its string
contents; the result is whether the returned pointer is non-`NULL`, together with
the contents of the buffer on return.  Writing `acc[length] = c; acc[length+1] = 0`
leaves the first `length` characters followed by `c`. -/
def encode_traverse (acc : List Char) (target : Char) : huffman_tree_t → Bool × List Char
  | mk _ letter left right =>
    if letter = target then (true, acc)
    else
      let length := acc.length
      let res : Bool × List Char :=
        match left with
        | some l => encode_traverse (acc.take length ++ ['L']) target l
        | none => (false, acc)
      if res.1 then res
      else
        match right with
        | some r => encode_traverse (res.2.take length ++ ['R']) target r
        | none => res

/-- The number of bytes of the buffer `acc` that a call of `encode_traverse` reads
or writes, counted from its start: `strlen` reads `length + 1` bytes, and a
write of a path symbol and its terminator reaches byte `length + 2`. -/
def encode_traverse_size (acc : List Char) (target : Char) : huffman_tree_t → Nat
  | mk _ letter left right =>
    if letter = target then 0
    else
      let length := acc.length
      let res : Bool × List Char :=
        match left with
        | some l => encode_traverse (acc.take length ++ ['L']) target l
        | none => (false, acc)
      let size_left : Nat :=
        match left with
        | some l => max (length + 2) (encode_traverse_size (acc.take length ++ ['L']) target l)
        | none => length + 1
      if res.1 then size_left
      else
        match right with
        | some r =>
          max size_left
            (max (length + 2) (encode_traverse_size (res.2.take length ++ ['R']) target r))
        | none => size_left

/-- The loop of `huffman_tree_encode`, without the bound on the buffers: `i` is the
loop counter, `result` the text of the result buffer, `size` the largest number
of bytes of a buffer used so far; `stale_acc i` is the text the block handed
out for `acc` in iteration `i` holds.  The return value of `encode_traverse` is
ignored and the buffer is appended to the result with `strcat`. -/
def huffman_tree_encode_loop (stale_acc : Nat → List Char) (t : huffman_tree_t) :
    Nat → List Char → Nat → List Char → List Char × Nat
  | _, result, size, [] => (result, size)
  | i, result, size, c :: s =>
    huffman_tree_encode_loop stale_acc t (i + 1)
      (result ++ (encode_traverse (stale_acc i) c t).2)
      (max size (max (encode_traverse_size (stale_acc i) c t)
        (result.length + (encode_traverse (stale_acc i) c t).2.length + 1))) s

/-- Function `huffman_tree_encode`.  Neither buffer is cleared after `malloc`:
`stale_result` is the text the result block holds when it is handed out,
`stale_acc i` that of the block handed out for `acc` in iteration `i`.  Both
buffers have `MAX_STRING_LENGTH` bytes; `none` means that one of them is
overrun. -/
def huffman_tree_encode (MAX_STRING_LENGTH : Nat) (stale_result : List Char)
    (stale_acc : Nat → List Char) (t : huffman_tree_t) (s : List Char) : Option (List Char) :=
  if (huffman_tree_encode_loop stale_acc t 0 stale_result 0 s).2 ≤ MAX_STRING_LENGTH then
    some (huffman_tree_encode_loop stale_acc t 0 stale_result 0 s).1
  else none

/-- The struct `return_value_t`.  The field `count` is an index into the code: it
starts at 0 and is only ever incremented. -/
structure return_value_t where
  count : Nat
  letter : Char
  deriving DecidableEq, Repr

/-- Function `decode_traverse`.  `none` is a memory fault: following a `NULL`
child, or reading `code[count]` beyond the terminating NUL.  Reading the
terminator itself yields a character different from `'L'`. -/
def decode_traverse (code : List Char) : huffman_tree_t → Nat → Option return_value_t
  | mk _ letter left right, count =>
    if letter ≠ ' ' then some ⟨count, letter⟩
    else if code.length < count then none
    else if code.get? count = some 'L' then
      match left with
      | some l => decode_traverse code l (count + 1)
      | none => none
    else
      match right with
      | some r => decode_traverse code r (count + 1)
      | none => none

/-- The `while` loop of `huffman_tree_decode`, bounded by a number of iterations.
`none` means a memory fault (in `decode_traverse`, or `code` advanced beyond
its terminator) or that the bound was reached. -/
def huffman_tree_decode_loop (t : huffman_tree_t) : Nat → List Char → List Char → Option (List Char)
  | _, [], result => some result
  | 0, _ :: _, _ => none
  | fuel + 1, c :: code, result =>
    match decode_traverse (c :: code) t 0 with
    | none => none
    | some return_value =>
      if (c :: code).length < return_value.count then none
      else huffman_tree_decode_loop t fuel ((c :: code).drop return_value.count)
        (result ++ [return_value.letter])

/-- Function `huffman_tree_decode`, run for at most `fuel` iterations of its loop. -/
def huffman_tree_decode (fuel : Nat) (t : huffman_tree_t) (code : List Char) : Option (List Char) :=
  huffman_tree_decode_loop t fuel code []

/-- The body of the `while` loop of `huffman_tree_decode`: from the code still to be
read and the result so far to their values after one iteration.  `none` is a
memory fault. -/
def huffman_tree_decode_step (t : huffman_tree_t) (code result : List Char) :
    Option (List Char × List Char) :=
  match decode_traverse code t 0 with
  | none => none
  | some return_value =>
    if code.length < return_value.count then none
    else some (code.drop return_value.count, result ++ [return_value.letter])

/-- The composition used to obtain the tree of a source string:
`huffman_tree_list_reduce(huffman_tree_list_build(src, nub(src)))`. -/
def build_tree (stale_build : Nat → stale_fields) (stale_reduce : Nat → huffman_tree_list_t)
    (fuel : Nat) (src : List Char) : Option huffman_tree_list_t :=
  huffman_tree_list_reduce stale_reduce fuel (huffman_tree_list_build stale_build src (nub src))

/-- Blocks whose unwritten fields happen to hold zero bytes, as on a heap that
has not been used before. -/
def zeroed_fields : Nat → stale_fields :=
  fun _ => ⟨none, none, []⟩

/-- List cells whose `next` field happens to hold `NULL`. -/
def zeroed_next : Nat → huffman_tree_list_t :=
  fun _ => []

/-! ## Auxiliary notions used to state the properties -/

/-- The leaves of a tree (nodes with both child pointers `NULL`) from left to
right, each given by its letter and its count. -/
def leaves : huffman_tree_t → List (Char × Int)
  | mk c x none none => [(x, c)]
  | mk _ _ (some a) none => leaves a
  | mk _ _ none (some b) => leaves b
  | mk _ _ (some a) (some b) => leaves a ++ leaves b

/-- The number of nodes that have at least one child. -/
def num_internal : huffman_tree_t → Nat
  | mk _ _ none none => 0
  | mk _ _ (some a) none => num_internal a + 1
  | mk _ _ none (some b) => num_internal b + 1
  | mk _ _ (some a) (some b) => num_internal a + num_internal b + 1

/-- Every node has either no child or two children. -/
def full : huffman_tree_t → Bool
  | mk _ _ none none => true
  | mk _ _ (some _) none => false
  | mk _ _ none (some _) => false
  | mk _ _ (some a) (some b) => full a && full b

/-- The leaves of a tree from left to right, each given by its letter and the
path from the root to it: `'L'` for a step to the left child, `'R'` for a step to
the right child. -/
def leaf_paths : huffman_tree_t → List (Char × List Char)
  | mk _ x none none => [(x, [])]
  | mk _ _ (some a) none => (leaf_paths a).map (fun p => (p.1, 'L' :: p.2))
  | mk _ _ none (some b) => (leaf_paths b).map (fun p => (p.1, 'R' :: p.2))
  | mk _ _ (some a) (some b) =>
    (leaf_paths a).map (fun p => (p.1, 'L' :: p.2)) ++ (leaf_paths b).map (fun p => (p.1, 'R' :: p.2))

/-- Weighted path length below depth `d`: the sum over the leaves of the leaf
count times the depth of the leaf, the root of the tree being at depth `d`. -/
def wpl_from (d : Int) : huffman_tree_t → Int
  | mk c _ none none => c * d
  | mk _ _ (some a) none => wpl_from (d + 1) a
  | mk _ _ none (some b) => wpl_from (d + 1) b
  | mk _ _ (some a) (some b) => wpl_from (d + 1) a + wpl_from (d + 1) b

/-- Weighted path length of a tree: sum over its leaves of count times depth. -/
def wpl (t : huffman_tree_t) : Int :=
  wpl_from 0 t

/-- The shape that the builder and the reducer are written to produce, as a
test: a node without children, or a node with the letter `' '` and two
children of that shape. -/
def well_formed : huffman_tree_t → Bool
  | mk _ _ none none => true
  | mk _ _ (some _) none => false
  | mk _ _ none (some _) => false
  | mk _ x (some a) (some b) => decide (x = ' ') && well_formed a && well_formed b

/-- The shape tested by `well_formed`, as an inductive property. -/
inductive Shaped : huffman_tree_t → Prop
  | leaf (c : Int) (x : Char) : Shaped (mk c x none none)
  | node (c : Int) (a b : huffman_tree_t) : Shaped a → Shaped b → Shaped (mk c ' ' (some a) (some b))

/-- The text found in the block handed out for `acc` in iteration `i` of
`huffman_tree_encode` when the allocator returns, each time, the block that the
previous iteration has freed: empty at first, then what the previous
iteration left in it. -/
def acc_reused (t : huffman_tree_t) (s : List Char) : Nat → List Char
  | 0 => []
  | i + 1 => (encode_traverse (acc_reused t s i) (s.getD i ' ') t).2

/-- Blocks for `huffman_tree_list_build` of which the first tree block holds in its
`right` field a stale pointer to a leaf `z` of count 7; all other unwritten
fields hold `NULL`. -/
def stale_right_child : Nat → stale_fields
  | 0 => ⟨none, some (mk 7 'z' none none), []⟩
  | _ + 1 => ⟨none, none, []⟩

/-- Blocks for `huffman_tree_list_build` of which the first list cell holds in its
`next` field a stale pointer to a cell with the leaf `z` of count 1; all other
unwritten fields hold `NULL`. -/
def stale_next_cell : Nat → stale_fields
  | 0 => ⟨none, none, [mk 1 'z' none none]⟩
  | _ + 1 => ⟨none, none, []⟩

/-- The tree of the source `"aabbc"` (`b:2` to the left; to the right the node of
`c:1` and `a:2`). -/
def tree_aabbc : huffman_tree_t :=
  mk 5 ' ' (some (mk 2 'b' none none))
    (some (mk 3 ' ' (some (mk 1 'c' none none)) (some (mk 2 'a' none none))))

/-- The tree of the source `"a bb a"` (`b:2` to the left; to the right the node of
`a:2` and `' ':2`). -/
def tree_a_bb_a : huffman_tree_t :=
  mk 6 ' ' (some (mk 2 'b' none none))
    (some (mk 4 ' ' (some (mk 2 'a' none none)) (some (mk 2 ' ' none none))))

/-- The tree of the source `"ab"`. -/
def tree_ab : huffman_tree_t :=
  mk 2 ' ' (some (mk 1 'a' none none)) (some (mk 1 'b' none none))

/-- The tree of the source `" a"`. -/
def tree_space_a : huffman_tree_t :=
  mk 2 ' ' (some (mk 1 ' ' none none)) (some (mk 1 'a' none none))

/-- The tree that the program makes of the source `"ab"` when the block of the
leaf `a` holds a stale `right` pointer to a leaf `z:7`. -/
def tree_ab_stale : huffman_tree_t :=
  mk 2 ' ' (some (mk 1 'a' none (some (mk 7 'z' none none)))) (some (mk 1 'b' none none))

/-! ## Trees -/

theorem tree_induct {P : huffman_tree_t → Prop}
    (h : ∀ c x l r, (∀ a, l = some a → P a) → (∀ b, r = some b → P b) → P (mk c x l r)) :
    ∀ t, P t
  | mk c x none none => h c x none none (by simp) (by simp)
  | mk c x (some a) none =>
    h c x (some a) none (by intro a' e; cases e; exact tree_induct h a) (by simp)
  | mk c x none (some b) =>
    h c x none (some b) (by simp) (by intro b' e; cases e; exact tree_induct h b)
  | mk c x (some a) (some b) =>
    h c x (some a) (some b) (by intro a' e; cases e; exact tree_induct h a)
      (by intro b' e; cases e; exact tree_induct h b)

theorem encode_traverse_mk (acc : List Char) (target : Char) (c : Int) (letter : Char)
    (left right : Option huffman_tree_t) :
    encode_traverse acc target (mk c letter left right) =
      if letter = target then (true, acc)
      else
        let length := acc.length
        let res : Bool × List Char :=
          match left with
          | some l => encode_traverse (acc.take length ++ ['L']) target l
          | none => (false, acc)
        if res.1 then res
        else
          match right with
          | some r => encode_traverse (res.2.take length ++ ['R']) target r
          | none => res := by
  cases left <;> cases right <;> rfl

theorem decode_traverse_mk (code : List Char) (count : Nat) (c : Int) (letter : Char)
    (left right : Option huffman_tree_t) :
    decode_traverse code (mk c letter left right) count =
    if letter ≠ ' ' then some ⟨count, letter⟩
    else if code.length < count then none
    else if code.get? count = some 'L' then
      match left with
      | some l => decode_traverse code l (count + 1)
      | none => none
    else
      match right with
      | some r => decode_traverse code r (count + 1)
      | none => none := by
  cases left <;> cases right <;> rfl

/-! ## Alphabet -/

theorem contains_eq (s : List Char) (c : Char) : contains s c = if c ∈ s then 1 else 0 := by
  induction s with
  | nil => simp [contains]
  | cons x s ih =>
    by_cases h : c = x
    · simp [contains, h]
    · simp [contains, h, ih]

theorem contains_eq_zero_iff (s : List Char) (c : Char) : contains s c = 0 ↔ c ∉ s := by
  rw [contains_eq]
  by_cases h : c ∈ s <;> simp [h]

theorem mem_nub_loop (s acc : List Char) (c : Char) :
    c ∈ nub_loop s acc ↔ c ∈ acc ∨ c ∈ s := by
  induction s generalizing acc with
  | nil => simp [nub_loop]
  | cons x s ih =>
    unfold nub_loop
    split
    · rw [ih]
      simp only [List.mem_append, List.mem_singleton, List.mem_cons]
      tauto
    · rename_i hx
      have hx' : x ∈ acc := by
        by_contra hn
        exact hx ((contains_eq_zero_iff acc x).2 hn)
      rw [ih]
      simp only [List.mem_cons]
      constructor
      · rintro (h | h)
        · exact Or.inl h
        · exact Or.inr (Or.inr h)
      · rintro (h | rfl | h)
        · exact Or.inl h
        · exact Or.inl hx'
        · exact Or.inr h

theorem nodup_nub_loop (s acc : List Char) (h : acc.Nodup) : (nub_loop s acc).Nodup := by
  induction s generalizing acc with
  | nil => simpa [nub_loop] using h
  | cons x s ih =>
    unfold nub_loop
    split
    · rename_i hx
      apply ih
      rw [List.nodup_append]
      refine ⟨h, List.nodup_singleton x, ?_⟩
      intro a ha hb
      rw [List.mem_singleton] at hb
      subst hb
      exact (contains_eq_zero_iff acc a).1 hx ha
    · exact ih acc h

theorem mem_nub (s : List Char) (c : Char) : c ∈ nub s ↔ c ∈ s := by
  simp [nub, mem_nub_loop]

theorem nodup_nub (s : List Char) : (nub s).Nodup :=
  nodup_nub_loop s [] List.nodup_nil

theorem nub_loop_append (s : List Char) (x : Char) (acc : List Char) :
    nub_loop (s ++ [x]) acc =
      if contains (nub_loop s acc) x = 0 then nub_loop s acc ++ [x] else nub_loop s acc := by
  induction s generalizing acc with
  | nil => simp [nub_loop]
  | cons y s ih =>
    simp only [List.cons_append, nub_loop]
    split
    · exact ih _
    · exact ih _

theorem nub_append_singleton (s : List Char) (x : Char) :
    nub (s ++ [x]) = if x ∈ s then nub s else nub s ++ [x] := by
  unfold nub
  rw [nub_loop_append]
  by_cases hx : x ∈ s
  · have : contains (nub_loop s []) x ≠ 0 := by
      rw [Ne, contains_eq_zero_iff]
      exact not_not.2 ((mem_nub s x).2 hx)
    rw [if_neg this, if_pos hx]
  · have : contains (nub_loop s []) x = 0 := by
      rw [contains_eq_zero_iff]
      exact fun h => hx ((mem_nub s x).1 h)
    rw [if_pos this, if_neg hx]

theorem indexOf_nub_lt_iff (s : List Char) :
    ∀ c d : Char, c ∈ s → d ∈ s →
      ((nub s).indexOf c < (nub s).indexOf d ↔ s.indexOf c < s.indexOf d) := by
  induction s using List.reverseRecOn with
  | nil => intro c d hc; simp at hc
  | append_singleton s x ih =>
    intro c d hc hd
    rw [nub_append_singleton]
    by_cases hx : x ∈ s
    · have hc' : c ∈ s := by
        rcases List.mem_append.1 hc with h | h
        · exact h
        · rw [List.mem_singleton.1 h]; exact hx
      have hd' : d ∈ s := by
        rcases List.mem_append.1 hd with h | h
        · exact h
        · rw [List.mem_singleton.1 h]; exact hx
      rw [if_pos hx, List.indexOf_append_of_mem hc', List.indexOf_append_of_mem hd']
      exact ih c d hc' hd'
    · rw [if_neg hx]
      have hxn : x ∉ nub s := fun h => hx ((mem_nub s x).1 h)
      by_cases hc' : c ∈ s
      · have hcn : c ∈ nub s := (mem_nub s c).2 hc'
        rw [List.indexOf_append_of_mem hc', List.indexOf_append_of_mem hcn]
        by_cases hd' : d ∈ s
        · rw [List.indexOf_append_of_mem hd', List.indexOf_append_of_mem ((mem_nub s d).2 hd')]
          exact ih c d hc' hd'
        · have hdx : d = x := by
            rcases List.mem_append.1 hd with h | h
            · exact absurd h hd'
            · exact List.mem_singleton.1 h
          subst hdx
          rw [List.indexOf_append_of_not_mem hd', List.indexOf_append_of_not_mem hxn]
          have h1 := List.indexOf_lt_length.2 hcn
          have h2 := List.indexOf_lt_length.2 hc'
          constructor <;> intro _ <;> omega
      · have hcx : c = x := by
          rcases List.mem_append.1 hc with h | h
          · exact absurd h hc'
          · exact List.mem_singleton.1 h
        subst hcx
        rw [List.indexOf_append_of_not_mem hc', List.indexOf_append_of_not_mem hxn]
        simp only [List.indexOf_cons_self, add_zero]
        have h1 : (nub s ++ [c]).indexOf d ≤ (nub s ++ [c]).length := List.indexOf_le_length
        have h2 : (s ++ [c]).indexOf d ≤ (s ++ [c]).length := List.indexOf_le_length
        have h3 := List.indexOf_lt_length.2 hd
        by_cases hd' : d ∈ s
        · rw [List.indexOf_append_of_mem hd', List.indexOf_append_of_mem ((mem_nub s d).2 hd')]
          have h4 := List.indexOf_lt_length.2 hd'
          have h5 := List.indexOf_lt_length.2 ((mem_nub s d).2 hd')
          constructor <;> intro _ <;> omega
        · have hdx : d = c := by
            rcases List.mem_append.1 hd with h | h
            · exact absurd h hd'
            · exact List.mem_singleton.1 h
          subst hdx
          rw [List.indexOf_append_of_not_mem hd', List.indexOf_append_of_not_mem hxn]
          simp

/-! ## The search of the encoder -/

/-- The search for a target other than `' '` that no leaf carries fails on a tree
of the program's shape, and leaves in the buffer the path to the rightmost
leaf, which consists of `'R'` only. -/
theorem encode_traverse_absent_shaped {t : huffman_tree_t} (h : Shaped t) (target : Char)
    (hc : target ≠ ' ') (habs : target ∉ (leaf_paths t).map Prod.fst) :
    ∃ (init : List (Char × List Char)) (d : Char) (k : Nat),
      leaf_paths t = init ++ [(d, List.replicate k 'R')] ∧
        ∀ acc, encode_traverse acc target t = (false, acc ++ List.replicate k 'R') := by
  induction h with
  | leaf c x =>
    have hx : ¬ x = target := by
      intro e
      apply habs
      simp [leaf_paths, e]
    exact ⟨[], x, 0, rfl, fun acc => by simp [encode_traverse_mk, hx]⟩
  | node c a b _ _ iha ihb =>
    have hsp : ¬ (' ' = target) := fun e => hc e.symm
    have ha : target ∉ (leaf_paths a).map Prod.fst := by
      intro hm
      apply habs
      simp only [leaf_paths, List.map_append, List.map_map, List.mem_append]
      left
      simpa [Function.comp_def] using hm
    have hb : target ∉ (leaf_paths b).map Prod.fst := by
      intro hm
      apply habs
      simp only [leaf_paths, List.map_append, List.map_map, List.mem_append]
      right
      simpa [Function.comp_def] using hm
    obtain ⟨-, -, ka, -, hea⟩ := iha ha
    obtain ⟨initb, d, kb, hlb, heb⟩ := ihb hb
    refine ⟨(leaf_paths a).map (fun p => (p.1, 'L' :: p.2)) ++
        initb.map (fun p => (p.1, 'R' :: p.2)), d, kb + 1, ?_, fun acc => ?_⟩
    · simp [leaf_paths, hlb, List.replicate_succ]
    · simp [encode_traverse_mk, hsp, hea, heb, List.take_append_eq_append_take,
        List.replicate_succ]

/-! ## The decoder -/

theorem drop_eq_cons {code : List Char} {n : Nat} {y : Char} {ys : List Char}
    (h : code.drop n = y :: ys) :
    n < code.length ∧ code.get? n = some y ∧ code.drop (n + 1) = ys := by
  induction code generalizing n with
  | nil => simp at h
  | cons x code ih =>
    cases n with
    | zero =>
      simp only [List.drop_zero, List.cons.injEq] at h
      obtain ⟨rfl, rfl⟩ := h
      simp
    | succ n =>
      simp only [List.drop_succ_cons] at h
      obtain ⟨h1, h2, h3⟩ := ih h
      refine ⟨by simpa using h1, by simpa using h2, by simpa using h3⟩

/-- Walking down from the root of a tree of the program's shape: when the code
continues at `count` with the path of a leaf whose letter is not `' '`, that
letter is returned and `count` has advanced by the length of the path. -/
theorem decode_traverse_shaped {t : huffman_tree_t} (h : Shaped t) (x : Char) (hx : x ≠ ' ')
    (p : List Char) (hp : (x, p) ∈ leaf_paths t) (code : List Char) (count : Nat)
    (rest : List Char) (hcode : code.drop count = p ++ rest) :
    decode_traverse code t count = some ⟨count + p.length, x⟩ := by
  induction h generalizing p count with
  | leaf c y =>
    simp only [leaf_paths, List.mem_singleton, Prod.mk.injEq] at hp
    obtain ⟨rfl, rfl⟩ := hp
    simp [decode_traverse_mk, hx]
  | node c a b _ _ iha ihb =>
    simp only [leaf_paths, List.mem_append, List.mem_map, Prod.mk.injEq] at hp
    rcases hp with ⟨⟨y, p'⟩, hm, hy, hp'⟩ | ⟨⟨y, p'⟩, hm, hy, hp'⟩
    · simp only at hy hp'
      subst hy hp'
      rw [List.cons_append] at hcode
      obtain ⟨h1, h2, h3⟩ := drop_eq_cons hcode
      have := iha p' hm (count + 1) h3
      rw [decode_traverse_mk]
      simp only [ne_eq, not_true_eq_false, if_false, not_lt.mpr (le_of_lt h1), h2, if_true, this,
        List.length_cons]
      congr 2
      omega
    · simp only at hy hp'
      subst hy hp'
      rw [List.cons_append] at hcode
      obtain ⟨h1, h2, h3⟩ := drop_eq_cons hcode
      have := ihb p' hm (count + 1) h3
      rw [decode_traverse_mk]
      have hne : ¬ (some 'R' = some 'L') := by decide
      simp only [ne_eq, not_true_eq_false, if_false, not_lt.mpr (le_of_lt h1), h2, hne, this,
        List.length_cons]
      congr 2
      omega

theorem leaf_paths_node_ne_nil {c : Int} {x : Char} {a b : huffman_tree_t} {q : Char × List Char}
    (hq : q ∈ leaf_paths (mk c x (some a) (some b))) : q.2 ≠ [] := by
  simp only [leaf_paths, List.mem_append, List.mem_map] at hq
  rcases hq with ⟨r, -, rfl⟩ | ⟨r, -, rfl⟩ <;> simp

/-- The decoding loop on a tree with an internal root: a concatenation of paths
of leaves whose letters differ from `' '` is decoded to the letters of those
leaves, one iteration per leaf. -/
theorem huffman_tree_decode_loop_shaped {t : huffman_tree_t} (h : Shaped t)
    (hne : ∀ q ∈ leaf_paths t, q.2 ≠ [])
    (seq : List (Char × List Char)) (hseq : ∀ q ∈ seq, q ∈ leaf_paths t ∧ q.1 ≠ ' ')
    (fuel : Nat)
    (hfuel : seq.length ≤ fuel) (result : List Char) :
    huffman_tree_decode_loop t fuel (seq.map Prod.snd).flatten result =
      some (result ++ seq.map Prod.fst) := by
  induction seq generalizing fuel result with
  | nil => cases fuel <;> simp [huffman_tree_decode_loop]
  | cons q seq ih =>
    obtain ⟨x, p⟩ := q
    obtain ⟨hq, hx⟩ : (x, p) ∈ leaf_paths t ∧ x ≠ ' ' := hseq _ (List.mem_cons_self _ _)
    have hp : p ≠ [] := hne _ hq
    cases fuel with
    | zero => simp at hfuel
    | succ fuel =>
      simp only [List.map_cons, List.flatten_cons]
      obtain ⟨y, ys, hy⟩ := List.exists_cons_of_ne_nil hp
      have hd := decode_traverse_shaped h x hx p hq (p ++ (seq.map Prod.snd).flatten) 0
        (seq.map Prod.snd).flatten (by simp)
      have hcons : p ++ (seq.map Prod.snd).flatten = y :: (ys ++ (seq.map Prod.snd).flatten) := by
        rw [hy]; rfl
      rw [hcons] at hd ⊢
      rw [huffman_tree_decode_loop, hd]
      simp only [Nat.zero_add]
      rw [← hcons, if_neg (by simp), List.drop_left]
      rw [ih (fun r hr => hseq r (List.mem_cons_of_mem _ hr)) fuel
        (by simpa using hfuel)]
      simp

theorem length_le_length_flatten (seq : List (Char × List Char))
    (h : ∀ q ∈ seq, q.2 ≠ []) : seq.length ≤ (seq.map Prod.snd).flatten.length := by
  induction seq with
  | nil => simp
  | cons q seq ih =>
    have h1 := ih (fun r hr => h r (List.mem_cons_of_mem _ hr))
    have h2 : 0 < q.2.length := List.length_pos.2 (h q (List.mem_cons_self _ _))
    simp only [List.map_cons, List.flatten_cons, List.length_append, List.length_cons]
    omega

/-- On a bare leaf whose letter is not `' '` the decoding loop makes no progress:
no number of iterations ends it on a non-empty code. -/
theorem huffman_tree_decode_loop_leaf (n : Int) (x : Char) (hx : x ≠ ' ') (fuel : Nat)
    (c : Char) (code result : List Char) :
    huffman_tree_decode_loop (mk n x none none) fuel (c :: code) result = none := by
  induction fuel generalizing result with
  | zero => rfl
  | succ fuel ih =>
    rw [huffman_tree_decode_loop]
    simp only [decode_traverse_mk, ne_eq, hx, not_false_eq_true, if_true, List.drop_zero]
    exact ih _

theorem Shaped_of_well_formed : ∀ t : huffman_tree_t, well_formed t = true → Shaped t := by
  apply tree_induct
  intro c x l r ihl ihr h
  cases l with
  | none =>
    cases r with
    | none => exact Shaped.leaf c x
    | some b => simp [well_formed] at h
  | some a =>
    cases r with
    | none => simp [well_formed] at h
    | some b =>
      simp only [well_formed, Bool.and_eq_true, decide_eq_true_eq] at h
      obtain ⟨⟨hx, ha⟩, hb⟩ := h
      subst hx
      exact Shaped.node c a b (ihl a rfl ha) (ihr b rfl hb)

theorem Shaped.paths_ne_nil {t : huffman_tree_t} (h : Shaped t) (hroot : t.left.isSome = true) :
    ∀ q ∈ leaf_paths t, q.2 ≠ [] := by
  cases h with
  | leaf c x => simp [left] at hroot
  | node c a b _ _ => exact fun q hq => leaf_paths_node_ne_nil hq

/-- More iterations do not change a result of the decoding loop. -/
theorem huffman_tree_decode_loop_succ (t : huffman_tree_t) :
    ∀ (fuel : Nat) (code result r : List Char),
      huffman_tree_decode_loop t fuel code result = some r →
      huffman_tree_decode_loop t (fuel + 1) code result = some r := by
  intro fuel
  induction fuel with
  | zero =>
    intro code result r h
    cases code with
    | nil => simpa [huffman_tree_decode_loop] using h
    | cons c code => simp [huffman_tree_decode_loop] at h
  | succ fuel ih =>
    intro code result r h
    cases code with
    | nil => simpa [huffman_tree_decode_loop] using h
    | cons c code =>
      rw [huffman_tree_decode_loop] at h ⊢
      cases hd : decode_traverse (c :: code) t 0 with
      | none => rw [hd] at h; simp at h
      | some rv =>
        rw [hd] at h
        simp only at h ⊢
        split at h
        · simp at h
        · rename_i hlen
          rw [if_neg hlen]
          exact ih _ _ _ h

theorem huffman_tree_decode_mono (t : huffman_tree_t) (code r : List Char) (fuel : Nat)
    (h : huffman_tree_decode fuel t code = some r) :
    ∀ k : Nat, huffman_tree_decode (fuel + k) t code = some r := by
  intro k
  induction k with
  | zero => exact h
  | succ k ih => exact huffman_tree_decode_loop_succ t _ _ _ _ ih

/-- The result of the decoder, when there is one, does not depend on the bound on
the iterations. -/
theorem huffman_tree_decode_unique (t : huffman_tree_t) (code r r' : List Char)
    (fuel fuel' : Nat) (h : huffman_tree_decode fuel t code = some r)
    (h' : huffman_tree_decode fuel' t code = some r') : r = r' := by
  have h1 := huffman_tree_decode_mono t code r fuel h fuel'
  have h2 := huffman_tree_decode_mono t code r' fuel' h' fuel
  rw [Nat.add_comm] at h2
  rw [h1] at h2
  exact Option.some.inj h2

theorem huffman_tree_decode_of_le (t : huffman_tree_t) (code r : List Char) (fuel fuel' : Nat)
    (h : huffman_tree_decode fuel t code = some r) (hle : fuel ≤ fuel') :
    huffman_tree_decode fuel' t code = some r := by
  obtain ⟨k, rfl⟩ := Nat.exists_eq_add_of_le hle
  exact huffman_tree_decode_mono t code r fuel h k

/-! ## Trees built on zeroed blocks -/

theorem mem_huffman_tree_list_add (stale_next l : huffman_tree_list_t) (t x : huffman_tree_t) :
    x ∈ huffman_tree_list_add stale_next l t → x = t ∨ x ∈ l ∨ x ∈ stale_next := by
  induction l with
  | nil => simp [huffman_tree_list_add]
  | cons current next ih =>
    rw [huffman_tree_list_add]
    split
    · simp only [List.mem_cons]
      tauto
    · simp only [List.mem_cons]
      rintro (h | h)
      · exact Or.inr (Or.inl (Or.inl h))
      · rcases ih h with h | h | h
        · exact Or.inl h
        · exact Or.inr (Or.inl (Or.inr h))
        · exact Or.inr (Or.inr h)

theorem length_huffman_tree_list_add_nil (l : huffman_tree_list_t) (t : huffman_tree_t) :
    (huffman_tree_list_add [] l t).length = l.length + 1 := by
  induction l with
  | nil => rfl
  | cons current next ih =>
    rw [huffman_tree_list_add]
    split
    · rfl
    · simp [ih]

/-- On blocks whose unwritten fields hold zero, every entry that the builder adds
to the list is a node without children. -/
theorem huffman_tree_list_build_loop_zeroed (s : List Char) :
    ∀ (t : List Char) (i : Nat) (list : huffman_tree_list_t),
      (∀ x ∈ list, well_formed x = true) →
      (∀ x ∈ huffman_tree_list_build_loop zeroed_fields s i list t, well_formed x = true) ∧
      (huffman_tree_list_build_loop zeroed_fields s i list t).length = list.length + t.length := by
  intro t
  induction t with
  | nil => exact fun i list h => ⟨h, rfl⟩
  | cons current t ih =>
    intro i list h
    rw [huffman_tree_list_build_loop]
    have h' : ∀ x ∈ huffman_tree_list_add (zeroed_fields i).next list
        (new_leaf (zeroed_fields i).left (zeroed_fields i).right s current),
        well_formed x = true := by
      intro x hx
      rcases mem_huffman_tree_list_add _ _ _ _ hx with rfl | hx | hx
      · rfl
      · exact h x hx
      · simp [zeroed_fields] at hx
    obtain ⟨h1, h2⟩ := ih (i + 1) _ h'
    refine ⟨h1, ?_⟩
    rw [h2]
    have : (zeroed_fields i).next = [] := rfl
    rw [this, length_huffman_tree_list_add_nil, List.length_cons]
    omega

/-- On cells whose `next` field holds `NULL`, the reducer keeps the shape of the
entries, and its loop ends with one entry within `length - 1` iterations. -/
theorem huffman_tree_list_reduce_loop_zeroed :
    ∀ (fuel i : Nat) (l : huffman_tree_list_t), l ≠ [] → l.length ≤ fuel + 1 →
      (∀ x ∈ l, well_formed x = true) →
      ∃ tree, huffman_tree_list_reduce_loop zeroed_next fuel i l = some [tree] ∧
        well_formed tree = true := by
  intro fuel
  induction fuel with
  | zero =>
    intro i l hne hlen h
    match l, hne, hlen, h with
    | [a], _, _, h => exact ⟨a, by rfl, h a (by simp)⟩
    | _ :: _ :: _, _, hlen, _ => simp at hlen
  | succ fuel ih =>
    intro i l hne hlen h
    match l, hne, hlen, h with
    | [a], _, _, h => exact ⟨a, by rfl, h a (by simp)⟩
    | a :: b :: rest, _, hlen, h =>
      rw [huffman_tree_list_reduce_loop]
      have e : zeroed_next i = [] := rfl
      rw [e]
      apply ih
      · intro hnil
        have := length_huffman_tree_list_add_nil rest (new_node a b)
        rw [hnil] at this
        simp at this
      · rw [length_huffman_tree_list_add_nil]
        simp only [List.length_cons] at hlen
        omega
      · intro x hx
        rcases mem_huffman_tree_list_add _ _ _ _ hx with rfl | hx | hx
        · have ha := h a (by simp)
          have hb := h b (by simp)
          simp [new_node, well_formed, ha, hb]
        · exact h x (by simp [hx])
        · simp at hx

theorem length_nub_loop_le (s : List Char) : ∀ acc : List Char,
    (nub_loop s acc).length ≤ acc.length + s.length := by
  induction s with
  | nil => intro acc; simp [nub_loop]
  | cons x s ih =>
    intro acc
    rw [nub_loop]
    split
    · have := ih (acc ++ [x])
      rw [List.length_append] at this
      simp only [List.length_cons, List.length_nil] at this ⊢
      omega
    · have := ih acc
      simp only [List.length_cons]
      omega

/-- On blocks whose unwritten fields hold zero, the tree of a non-empty source is
built within as many iterations of the reducer as the source has characters,
and it has the shape tested by `well_formed`. -/
theorem build_tree_zeroed (src : List Char) (hsrc : src ≠ []) (fuel : Nat)
    (hfuel : src.length ≤ fuel + 1) :
    ∃ tree, build_tree zeroed_fields zeroed_next fuel src = some [tree] ∧
      well_formed tree = true := by
  obtain ⟨h1, h2⟩ := huffman_tree_list_build_loop_zeroed src (nub src) 0 [] (by simp)
  have hne : nub src ≠ [] := by
    obtain ⟨c, s, rfl⟩ := List.exists_cons_of_ne_nil hsrc
    intro h
    have := (mem_nub (c :: s) c).2 (by simp)
    rw [h] at this
    simp at this
  have hlen : (nub src).length ≤ src.length := by
    have := length_nub_loop_le src []
    simpa [nub] using this
  have hne' : huffman_tree_list_build zeroed_fields src (nub src) ≠ [] := by
    intro h
    have := congrArg List.length h
    rw [huffman_tree_list_build, h2] at this
    simp at this
    exact hne this
  obtain ⟨tree, ht, hw⟩ := huffman_tree_list_reduce_loop_zeroed fuel 0
    (huffman_tree_list_build zeroed_fields src (nub src)) hne'
    (by rw [huffman_tree_list_build, h2]; simp; omega) h1
  refine ⟨tree, ?_, hw⟩
  unfold build_tree huffman_tree_list_reduce
  cases hl : huffman_tree_list_build zeroed_fields src (nub src) with
  | nil => exact absurd hl hne'
  | cons x xs =>
    rw [hl] at ht
    exact ht

/-- A merge keeps the shape tested by `well_formed` and the letters of the
leaves. -/
theorem new_node_shape (src : List Char) (a b : huffman_tree_t)
    (ha : well_formed a = true ∧ ∀ q ∈ leaf_paths a, q.1 ∈ src)
    (hb : well_formed b = true ∧ ∀ q ∈ leaf_paths b, q.1 ∈ src) :
    well_formed (new_node a b) = true ∧ ∀ q ∈ leaf_paths (new_node a b), q.1 ∈ src := by
  refine ⟨by simp [new_node, well_formed, ha.1, hb.1], ?_⟩
  intro q hq
  simp only [new_node, leaf_paths, List.mem_append, List.mem_map] at hq
  rcases hq with ⟨p, hp, rfl⟩ | ⟨p, hp, rfl⟩
  · exact ha.2 p hp
  · exact hb.2 p hp

theorem huffman_tree_list_build_loop_zeroed_letters (src s : List Char) :
    ∀ (t : List Char) (i : Nat) (list : huffman_tree_list_t), (∀ c ∈ t, c ∈ src) →
      (∀ x ∈ list, well_formed x = true ∧ ∀ q ∈ leaf_paths x, q.1 ∈ src) →
      ∀ x ∈ huffman_tree_list_build_loop zeroed_fields s i list t,
        well_formed x = true ∧ ∀ q ∈ leaf_paths x, q.1 ∈ src := by
  intro t
  induction t with
  | nil => exact fun i list _ h => h
  | cons current t ih =>
    intro i list ht h
    rw [huffman_tree_list_build_loop]
    apply ih (i + 1) _ (fun c hc => ht c (List.mem_cons_of_mem _ hc))
    intro x hx
    rcases mem_huffman_tree_list_add _ _ _ _ hx with rfl | hx | hx
    · refine ⟨by rfl, ?_⟩
      intro q hq
      have e : leaf_paths (new_leaf (zeroed_fields i).left (zeroed_fields i).right s current) =
          [(current, [])] := rfl
      rw [e] at hq
      simp only [List.mem_singleton] at hq
      subst hq
      exact ht current (List.mem_cons_self _ _)
    · exact h x hx
    · simp [zeroed_fields] at hx

theorem huffman_tree_list_reduce_loop_zeroed_letters (src : List Char) :
    ∀ (fuel i : Nat) (l r : huffman_tree_list_t),
      (∀ x ∈ l, well_formed x = true ∧ ∀ q ∈ leaf_paths x, q.1 ∈ src) →
      huffman_tree_list_reduce_loop zeroed_next fuel i l = some r →
      ∀ x ∈ r, well_formed x = true ∧ ∀ q ∈ leaf_paths x, q.1 ∈ src := by
  intro fuel
  induction fuel with
  | zero =>
    intro i l r hl hr
    match l, hl, hr with
    | [], hl, hr =>
      simp [huffman_tree_list_reduce_loop] at hr
      subst hr
      exact hl
    | [a], hl, hr =>
      simp [huffman_tree_list_reduce_loop] at hr
      subst hr
      exact hl
    | _ :: _ :: _, _, hr => simp [huffman_tree_list_reduce_loop] at hr
  | succ fuel ih =>
    intro i l r hl hr
    match l, hl, hr with
    | [], hl, hr =>
      simp [huffman_tree_list_reduce_loop] at hr
      subst hr
      exact hl
    | [a], hl, hr =>
      simp [huffman_tree_list_reduce_loop] at hr
      subst hr
      exact hl
    | a :: b :: rest, hl, hr =>
      rw [huffman_tree_list_reduce_loop] at hr
      refine ih (i + 1) _ r ?_ hr
      intro x hx
      rcases mem_huffman_tree_list_add _ _ _ _ hx with rfl | hx | hx
      · exact new_node_shape src a b (hl a (by simp)) (hl b (by simp))
      · exact hl x (by simp [hx])
      · simp [zeroed_next] at hx

/-- On cells whose `next` field holds `NULL`, the tree left by the reducer of a
list of two or more entries is a node made by a merge: it has children. -/
theorem huffman_tree_list_reduce_loop_zeroed_root :
    ∀ (fuel i : Nat) (l : huffman_tree_list_t) (tree : huffman_tree_t), 2 ≤ l.length →
      huffman_tree_list_reduce_loop zeroed_next fuel i l = some [tree] →
      tree.left.isSome = true := by
  intro fuel
  induction fuel with
  | zero =>
    intro i l tree hlen h
    match l, hlen, h with
    | [], hlen, _ => simp at hlen
    | [_], hlen, _ => simp at hlen
    | _ :: _ :: _, _, h => simp [huffman_tree_list_reduce_loop] at h
  | succ fuel ih =>
    intro i l tree hlen h
    match l, hlen, h with
    | [], hlen, _ => simp at hlen
    | [_], hlen, _ => simp at hlen
    | a :: b :: rest, _, h =>
      rw [huffman_tree_list_reduce_loop] at h
      have e : zeroed_next i = [] := rfl
      rw [e] at h
      cases rest with
      | nil =>
        simp only [huffman_tree_list_add, huffman_tree_list_reduce_loop, Option.some.injEq,
          List.cons.injEq, and_true] at h
        subst h
        rfl
      | cons c rest =>
        refine ih (i + 1) _ tree ?_ h
        rw [length_huffman_tree_list_add_nil]
        simp

/-- A tree that the program returns for the source `src` when the fields it leaves
unset hold zero: it has the shape tested by `well_formed`, the letters of its
leaves occur in `src`, and its root has children when `src` has two distinct
characters. -/
theorem build_tree_zeroed_shape (fuel : Nat) (src : List Char) (tree : huffman_tree_t)
    (h : build_tree zeroed_fields zeroed_next fuel src = some [tree]) :
    well_formed tree = true ∧ (∀ q ∈ leaf_paths tree, q.1 ∈ src) ∧
      (∀ a b : Char, a ∈ src → b ∈ src → a ≠ b → tree.left.isSome = true) := by
  have h1 := huffman_tree_list_build_loop_zeroed_letters src src (nub src) 0 []
    (fun c hc => (mem_nub src c).1 hc) (by simp)
  obtain ⟨-, h2⟩ := huffman_tree_list_build_loop_zeroed src (nub src) 0 [] (by simp)
  unfold build_tree huffman_tree_list_reduce at h
  cases hl : huffman_tree_list_build zeroed_fields src (nub src) with
  | nil => rw [hl] at h; simp at h
  | cons x xs =>
    rw [hl] at h
    have hsh := huffman_tree_list_reduce_loop_zeroed_letters src fuel 0 _ _
      (by rw [← hl]; exact h1) h tree (by simp)
    refine ⟨hsh.1, hsh.2, fun a b ha hb hab => ?_⟩
    apply huffman_tree_list_reduce_loop_zeroed_root fuel 0 _ tree ?_ h
    rw [← hl, huffman_tree_list_build, h2]
    have hsub : [a, b].Subperm (nub src) := by
      apply List.subperm_of_subset (by simp [hab])
      intro c hc
      simp only [List.mem_cons, List.mem_singleton, List.not_mem_nil, or_false] at hc
      rcases hc with rfl | rfl
      · exact (mem_nub src c).2 ha
      · exact (mem_nub src c).2 hb
    simpa using hsub.length_le
/-! ## The claims -/

/-- C1: the round trip fails on the program.  Source `"a bb a"`, string `"abba"`:
the tree is built on blocks whose unwritten fields are zero; in
`huffman_tree_encode` the allocator hands back for `acc`, each time, the block just
freed, which still holds the previous path.  The encoding is
`"RLRLLRLLLRLLLRL"` and not `"RLLLRL"`; it is decoded to `"aababbabba"`, and no
number of iterations of the decoder returns `"abba"`. -/
theorem round_trip_fails_on_reused_acc :
    build_tree zeroed_fields zeroed_next 2 ['a', ' ', 'b', 'b', ' ', 'a'] = some [tree_a_bb_a] ∧
    (∀ c ∈ ['a', 'b', 'b', 'a'], c ∈ ['a', ' ', 'b', 'b', ' ', 'a']) ∧
    (∀ MAX_STRING_LENGTH : Nat, 16 ≤ MAX_STRING_LENGTH →
      huffman_tree_encode MAX_STRING_LENGTH [] (acc_reused tree_a_bb_a ['a', 'b', 'b', 'a'])
          tree_a_bb_a ['a', 'b', 'b', 'a'] =
        some ['R', 'L', 'R', 'L', 'L', 'R', 'L', 'L', 'L', 'R', 'L', 'L', 'L', 'R', 'L']) ∧
    (∀ fuel : Nat, 10 ≤ fuel →
      huffman_tree_decode fuel tree_a_bb_a
          ['R', 'L', 'R', 'L', 'L', 'R', 'L', 'L', 'L', 'R', 'L', 'L', 'L', 'R', 'L'] =
        some ['a', 'a', 'b', 'a', 'b', 'b', 'a', 'b', 'b', 'a']) ∧
    ¬ ∃ fuel : Nat,
      huffman_tree_decode fuel tree_a_bb_a
          ['R', 'L', 'R', 'L', 'L', 'R', 'L', 'L', 'L', 'R', 'L', 'L', 'L', 'R', 'L'] =
        some ['a', 'b', 'b', 'a'] := by
  have hdec : huffman_tree_decode 10 tree_a_bb_a
      ['R', 'L', 'R', 'L', 'L', 'R', 'L', 'L', 'L', 'R', 'L', 'L', 'L', 'R', 'L'] =
      some ['a', 'a', 'b', 'a', 'b', 'b', 'a', 'b', 'b', 'a'] := by rfl
  have henc : huffman_tree_encode_loop (acc_reused tree_a_bb_a ['a', 'b', 'b', 'a'])
      tree_a_bb_a 0 [] 0 ['a', 'b', 'b', 'a'] =
      (['R', 'L', 'R', 'L', 'L', 'R', 'L', 'L', 'L', 'R', 'L', 'L', 'L', 'R', 'L'], 16) := by rfl
  refine ⟨by rfl, by decide, fun MAX hMAX => ?_,
    fun fuel hfuel => huffman_tree_decode_of_le _ _ _ _ _ hdec hfuel, ?_⟩
  · simp only [huffman_tree_encode, henc]
    rw [if_pos hMAX]
  · rintro ⟨fuel, h⟩
    have := huffman_tree_decode_unique _ _ _ _ _ _ hdec h
    exact absurd this (by decide)

/-- C2: the tree is not optimal on the program.  Source `"ab"`, with the block of
the leaf `a` holding a stale `right` pointer to a leaf `z:7`: the tree returned
has the leaves `z:7` at depth 2 and `b:1` at depth 1, weighted path length 15,
while the tree with the same two leaves as children of the root has weighted
path length 8. -/
theorem tree_not_optimal_on_stale_child :
    build_tree stale_right_child zeroed_next 1 ['a', 'b'] = some [tree_ab_stale] ∧
    leaves tree_ab_stale = [('z', 7), ('b', 1)] ∧
    (leaves (mk 8 ' ' (some (mk 7 'z' none none)) (some (mk 1 'b' none none)))).Perm
      (leaves tree_ab_stale) ∧
    wpl tree_ab_stale = 15 ∧
    wpl (mk 8 ' ' (some (mk 7 'z' none none)) (some (mk 1 'b' none none))) = 8 ∧
    ¬ wpl tree_ab_stale ≤
      wpl (mk 8 ' ' (some (mk 7 'z' none none)) (some (mk 1 'b' none none))) := by
  refine ⟨by rfl, by rfl, List.Perm.refl _, by rfl, by rfl, ?_⟩
  have h1 : wpl tree_ab_stale = 15 := by rfl
  have h2 : wpl (mk 8 ' ' (some (mk 7 'z' none none)) (some (mk 1 'b' none none))) = 8 := by rfl
  rw [h1, h2]
  decide

/-- C3: prefix-freedom fails on the program.  Tree of the source `"aabbc"`; a first
call `huffman_tree_encode(tree, "a")` on empty blocks returns `"RR"` and frees its
`acc` block, which holds `"RR"`; a second call `huffman_tree_encode(tree, "b")` that
is handed that block for `result` appends the path `"L"` to it and returns
`"RRL"`: the code word given to `a` is a prefix of the code word given to `b`.
The same happens when the block is handed out for `acc` instead. -/
theorem code_words_not_prefix_free_on_stale_result :
    build_tree zeroed_fields zeroed_next 2 ['a', 'a', 'b', 'b', 'c'] = some [tree_aabbc] ∧
    'a' ∈ ['a', 'a', 'b', 'b', 'c'] ∧ 'b' ∈ ['a', 'a', 'b', 'b', 'c'] ∧ 'a' ≠ 'b' ∧
    (∀ MAX_STRING_LENGTH : Nat, 4 ≤ MAX_STRING_LENGTH →
      huffman_tree_encode MAX_STRING_LENGTH [] (fun _ => []) tree_aabbc ['a'] =
          some ['R', 'R'] ∧
      (encode_traverse [] 'a' tree_aabbc).2 = ['R', 'R'] ∧
      huffman_tree_encode MAX_STRING_LENGTH ['R', 'R'] (fun _ => []) tree_aabbc ['b'] =
          some ['R', 'R', 'L'] ∧
      huffman_tree_encode MAX_STRING_LENGTH [] (fun _ => ['R', 'R']) tree_aabbc ['b'] =
          some ['R', 'R', 'L']) ∧
    ['R', 'R'] <+: ['R', 'R', 'L'] := by
  have h1 : huffman_tree_encode_loop (fun _ => []) tree_aabbc 0 [] 0 ['a'] =
      (['R', 'R'], 3) := by rfl
  have h2 : huffman_tree_encode_loop (fun _ => []) tree_aabbc 0 ['R', 'R'] 0 ['b'] =
      (['R', 'R', 'L'], 4) := by rfl
  have h3 : huffman_tree_encode_loop (fun _ => ['R', 'R']) tree_aabbc 0 [] 0 ['b'] =
      (['R', 'R', 'L'], 4) := by rfl
  refine ⟨by rfl, by decide, by decide, by decide, fun MAX hMAX => ⟨?_, by rfl, ?_, ?_⟩,
    ⟨['L'], by rfl⟩⟩
  · simp only [huffman_tree_encode, h1]
    rw [if_pos (by omega)]
  · simp only [huffman_tree_encode, h2]
    rw [if_pos hMAX]
  · simp only [huffman_tree_encode, h3]
    rw [if_pos hMAX]

/-- C4: the encoder contract fails on the program.  Tree of the source `"aabbc"`,
string `"abc"`, the allocator handing back for `acc` the block just freed: the
leaves `a`, `b`, `c` have the paths `"RR"`, `"L"`, `"RL"`, whose concatenation is
`"RRLRL"`, but `huffman_tree_encode` returns `"RRRRLRRLRL"`. -/
theorem encode_not_concatenation_on_reused_acc :
    build_tree zeroed_fields zeroed_next 2 ['a', 'a', 'b', 'b', 'c'] = some [tree_aabbc] ∧
    leaf_paths tree_aabbc = [('b', ['L']), ('c', ['R', 'L']), ('a', ['R', 'R'])] ∧
    ([('a', ['R', 'R']), ('b', ['L']), ('c', ['R', 'L'])].map Prod.snd).flatten =
      ['R', 'R', 'L', 'R', 'L'] ∧
    (∀ MAX_STRING_LENGTH : Nat, 11 ≤ MAX_STRING_LENGTH →
      huffman_tree_encode MAX_STRING_LENGTH [] (acc_reused tree_aabbc ['a', 'b', 'c'])
          tree_aabbc ['a', 'b', 'c'] =
        some ['R', 'R', 'R', 'R', 'L', 'R', 'R', 'L', 'R', 'L']) ∧
    ['R', 'R', 'R', 'R', 'L', 'R', 'R', 'L', 'R', 'L'] ≠ ['R', 'R', 'L', 'R', 'L'] := by
  have henc : huffman_tree_encode_loop (acc_reused tree_aabbc ['a', 'b', 'c']) tree_aabbc 0 [] 0
      ['a', 'b', 'c'] = (['R', 'R', 'R', 'R', 'L', 'R', 'R', 'L', 'R', 'L'], 11) := by rfl
  refine ⟨by rfl, by rfl, by rfl, fun MAX hMAX => ?_, by decide⟩
  simp only [huffman_tree_encode, henc]
  rw [if_pos hMAX]

/-- C5 (as amended): for a tree in which every node is a leaf without children or a
node with letter `' '` and two children (the shape of the trees built on zeroed
blocks, `build_tree_zeroed_shape`), with an internal root, and a finite sequence
of its leaves, none of them with the letter `' '`, decoding the concatenation
of the root-to-leaf paths of those leaves returns the letters of those leaves
in order; one loop iteration per leaf is enough. -/
theorem decode_concatenation_of_leaf_paths (tree : huffman_tree_t)
    (hwf : well_formed tree = true) (hroot : tree.left.isSome = true)
    (seq : List (Char × List Char))
    (hseq : ∀ q ∈ seq, q ∈ leaf_paths tree ∧ q.1 ≠ ' ') (fuel : Nat)
    (hfuel : seq.length ≤ fuel) :
    huffman_tree_decode fuel tree (seq.map Prod.snd).flatten = some (seq.map Prod.fst) := by
  have hsh := Shaped_of_well_formed tree hwf
  have := huffman_tree_decode_loop_shaped hsh (hsh.paths_ne_nil hroot) seq hseq fuel hfuel []
  simpa [huffman_tree_decode] using this

/-- Witness for `decode_concatenation_of_leaf_paths`: the tree that the program
builds from the source `"aabbc"` on zeroed blocks, the leaves `c`, `b`, `c`, `a`. -/
theorem decode_concatenation_of_leaf_paths_witness :
    build_tree zeroed_fields zeroed_next 2 ['a', 'a', 'b', 'b', 'c'] = some [tree_aabbc] ∧
    huffman_tree_decode 4 tree_aabbc
        ([('c', ['R', 'L']), ('b', ['L']), ('c', ['R', 'L']), ('a', ['R', 'R'])].map
          Prod.snd).flatten =
      some ([('c', ['R', 'L']), ('b', ['L']), ('c', ['R', 'L']), ('a', ['R', 'R'])].map
        Prod.fst) :=
  ⟨by rfl, decode_concatenation_of_leaf_paths tree_aabbc
    (build_tree_zeroed_shape 2 ['a', 'a', 'b', 'b', 'c'] tree_aabbc (by rfl)).1 (by rfl)
    [('c', ['R', 'L']), ('b', ['L']), ('c', ['R', 'L']), ('a', ['R', 'R'])] (by decide) 4
    (by decide)⟩

/-- C5 fails as stated.  The tree built from the source `"aa"` (on zeroed blocks) is
a bare leaf whose path is empty: the concatenation of the paths of the
one-leaf sequence is the empty code, which is decoded to the empty string and
not to `"a"`.  In the tree built from the source `" a"` the path `"L"` of the
leaf `' '` makes the decoder follow a `NULL` child. -/
theorem decode_concatenation_of_leaf_paths_counterexample :
    (build_tree zeroed_fields zeroed_next 0 ['a', 'a'] = some [mk 2 'a' none none] ∧
      leaf_paths (mk 2 'a' none none) = [('a', [])] ∧
      ¬ ∃ fuel, huffman_tree_decode fuel (mk 2 'a' none none)
          ([('a', ([] : List Char))].map Prod.snd).flatten =
        some ([('a', ([] : List Char))].map Prod.fst)) ∧
    (build_tree zeroed_fields zeroed_next 1 [' ', 'a'] = some [tree_space_a] ∧
      leaf_paths tree_space_a = [(' ', ['L']), ('a', ['R'])] ∧
      ¬ ∃ fuel, huffman_tree_decode fuel tree_space_a
          ([(' ', ['L'])].map Prod.snd).flatten = some ([(' ', ['L'])].map Prod.fst)) := by
  refine ⟨⟨by rfl, by rfl, ?_⟩, ⟨by rfl, by rfl, ?_⟩⟩
  · rintro ⟨fuel, h⟩
    cases fuel <;> simp [huffman_tree_decode, huffman_tree_decode_loop] at h
  · rintro ⟨fuel, h⟩
    cases fuel with
    | zero => simp [huffman_tree_decode, huffman_tree_decode_loop] at h
    | succ fuel =>
      have e : decode_traverse ['L'] tree_space_a 0 = none := by rfl
      simp [huffman_tree_decode, huffman_tree_decode_loop, e] at h

/-- C6: weight conservation fails on the program.  Source `"ab"`, with the block of
the leaf `a` holding a stale `right` pointer to a leaf `z:7`: the root of the
tree returned has count 2, the counts of its leaves sum to 8, and the source
has length 2. -/
theorem root_count_differs_on_stale_child :
    build_tree stale_right_child zeroed_next 1 ['a', 'b'] = some [tree_ab_stale] ∧
    tree_ab_stale.count = 2 ∧
    ((leaves tree_ab_stale).map Prod.snd).sum = 8 ∧
    (['a', 'b'].length : Int) = 2 ∧
    tree_ab_stale.count ≠ ((leaves tree_ab_stale).map Prod.snd).sum := by
  have h1 : tree_ab_stale.count = 2 := by rfl
  have h2 : ((leaves tree_ab_stale).map Prod.snd).sum = 8 := by rfl
  refine ⟨by rfl, h1, h2, by rfl, ?_⟩
  rw [h1, h2]
  decide

/-- C7: the tree shape fails on the program.  Source `"ab"` (`k = 2`), with the block
of the leaf `a` holding a stale `right` pointer to a leaf `z:7`: the tree
returned has 2 nodes with children instead of `k - 1 = 1`, and the node `a` has
exactly one child. -/
theorem tree_shape_fails_on_stale_child :
    build_tree stale_right_child zeroed_next 1 ['a', 'b'] = some [tree_ab_stale] ∧
    ['a', 'b'].toFinset.card = 2 ∧
    num_internal tree_ab_stale = 2 ∧
    num_internal tree_ab_stale ≠ 2 - 1 ∧
    full tree_ab_stale = false := by
  refine ⟨by rfl, by decide, by rfl, by decide, by rfl⟩

/-- C8: leaf uniqueness fails on the program.  Source `"ab"`, with the block of the
leaf `a` holding a stale `right` pointer to a leaf `z:7`: the leaves of the
tree returned are `z:7` and `b:1`; `a` occurs in the source and is the letter
of no leaf, `z` is the letter of a leaf and does not occur in the source, and
the count 7 is not a number of occurrences in the source. -/
theorem leaves_differ_on_stale_child :
    build_tree stale_right_child zeroed_next 1 ['a', 'b'] = some [tree_ab_stale] ∧
    leaves tree_ab_stale = [('z', 7), ('b', 1)] ∧
    'a' ∈ ['a', 'b'] ∧ ((leaves tree_ab_stale).map Prod.fst).count 'a' = 0 ∧
    'z' ∉ ['a', 'b'] ∧ ((leaves tree_ab_stale).map Prod.fst).count 'z' = 1 ∧
    (7 : Int) ≠ ((['a', 'b'].count 'z' : Nat) : Int) := by
  refine ⟨by rfl, by rfl, by decide, by decide, by decide, by decide, by decide⟩

/-- C9: the insertion rule fails on the program.  Adding the leaf `a:5` to the empty
list (`l == NULL`), and adding it to the list of the one leaf `x:1` (appended at
the end), with the new cell's block holding a stale `next` pointer to a cell
with the leaf `z:1`: the list returned has that stale cell after `a:5`, where
the claim gives `[a:5]` and `[x:1, a:5]`. -/
theorem huffman_tree_list_add_keeps_stale_next :
    huffman_tree_list_add [mk 1 'z' none none] [] (mk 5 'a' none none) =
      [mk 5 'a' none none, mk 1 'z' none none] ∧
    (huffman_tree_list_add [mk 1 'z' none none] [] (mk 5 'a' none none)).length ≠
      ([] ++ [mk 5 'a' none none] : huffman_tree_list_t).length ∧
    huffman_tree_list_add [mk 1 'z' none none] [mk 1 'x' none none] (mk 5 'a' none none) =
      [mk 1 'x' none none, mk 5 'a' none none, mk 1 'z' none none] ∧
    (huffman_tree_list_add [mk 1 'z' none none] [mk 1 'x' none none]
        (mk 5 'a' none none)).length ≠
      ([mk 1 'x' none none] ++ [mk 5 'a' none none] : huffman_tree_list_t).length := by
  refine ⟨by rfl, by decide, by rfl, by decide⟩

/-- C10: sortedness fails on the program.  Adding the leaf `a:5` to the empty list,
the first of every sequence of insertions, with the new cell's block holding
a stale `next` pointer to a cell with the leaf `z:1`: the list returned is
`[a:5, z:1]`, whose adjacent pair is out of order. -/
theorem huffman_tree_list_add_unsorted_on_stale_next :
    ([] : huffman_tree_list_t).Chain' (fun a b => a.count ≤ b.count) ∧
    huffman_tree_list_add [mk 1 'z' none none] [] (mk 5 'a' none none) =
      [mk 5 'a' none none, mk 1 'z' none none] ∧
    ¬ (huffman_tree_list_add [mk 1 'z' none none] [] (mk 5 'a' none none)).Chain'
      (fun a b => a.count ≤ b.count) := by
  refine ⟨List.chain'_nil, by rfl, ?_⟩
  have e : huffman_tree_list_add [mk 1 'z' none none] [] (mk 5 'a' none none) =
      [mk 5 'a' none none, mk 1 'z' none none] := by rfl
  rw [e]
  simp [count]
/-- C11: `nub s` has no repeated character, its characters are exactly those of `s`,
and they stand in the order of their first occurrence in `s`: of two characters
of `s`, the one first met earlier in `s` comes earlier in `nub s`; `nub` of the
empty string is the empty string. -/
theorem nub_first_occurrences (s : List Char) :
    (nub s).Nodup ∧ (∀ c : Char, c ∈ nub s ↔ c ∈ s) ∧
      (∀ c : Char, (nub s).count c = if c ∈ s then 1 else 0) ∧
      (∀ c d : Char, c ∈ s → d ∈ s →
        ((nub s).indexOf c < (nub s).indexOf d ↔ s.indexOf c < s.indexOf d)) ∧
      nub [] = [] := by
  refine ⟨nodup_nub s, mem_nub s, ?_, indexOf_nub_lt_iff s, rfl⟩
  intro c
  by_cases hc : c ∈ s
  · rw [if_pos hc]
    exact List.count_eq_one_of_mem (nodup_nub s) ((mem_nub s c).2 hc)
  · rw [if_neg hc]
    exact List.count_eq_zero_of_not_mem (fun h => hc ((mem_nub s c).1 h))

/-- Witness for `nub_first_occurrences`: the string `"abacb"`. -/
theorem nub_first_occurrences_witness :
    nub ['a', 'b', 'a', 'c', 'b'] = ['a', 'b', 'c'] ∧
      (nub ['a', 'b', 'a', 'c', 'b']).Nodup :=
  ⟨by rfl, (nub_first_occurrences ['a', 'b', 'a', 'c', 'b']).1⟩

/-- C12: the builder result fails on the program.  String `"aab"`, alphabet `"ab"`,
with the first list cell's block holding a stale `next` pointer to a cell with
the leaf `z:1`: the list returned is `[b:1, a:2, z:1]`, of length 3 instead of 2
and not ascending. -/
theorem huffman_tree_list_build_keeps_stale_next :
    ['a', 'b'].Nodup ∧
    huffman_tree_list_build stale_next_cell ['a', 'a', 'b'] ['a', 'b'] =
      [mk 1 'b' none none, mk 2 'a' none none, mk 1 'z' none none] ∧
    (huffman_tree_list_build stale_next_cell ['a', 'a', 'b'] ['a', 'b']).length ≠
      ['a', 'b'].length ∧
    ¬ (huffman_tree_list_build stale_next_cell ['a', 'a', 'b'] ['a', 'b']).Chain'
      (fun a b => a.count ≤ b.count) := by
  have e : huffman_tree_list_build stale_next_cell ['a', 'a', 'b'] ['a', 'b'] =
      [mk 1 'b' none none, mk 2 'a' none none, mk 1 'z' none none] := by rfl
  refine ⟨by decide, e, ?_, ?_⟩
  · rw [e]
    decide
  · rw [e]
    simp [count]

/-- C13: termination of the reducer fails on the program.  List `[x:1, y:2]`, with
every cell allocated by `huffman_tree_list_add` holding a stale `next` pointer to a
cell with the leaf `z:1`: after the merge the list has two entries again, not
one, and the loop does not end within any number of iterations. -/
theorem huffman_tree_list_reduce_loops_on_stale_next :
    huffman_tree_list_reduce_step [mk 1 'z' none none]
        [mk 1 'x' none none, mk 2 'y' none none] =
      [mk 3 ' ' (some (mk 1 'x' none none)) (some (mk 2 'y' none none)),
        mk 1 'z' none none] ∧
    (huffman_tree_list_reduce_step [mk 1 'z' none none]
        [mk 1 'x' none none, mk 2 'y' none none]).length = 2 ∧
    ∀ fuel : Nat,
      huffman_tree_list_reduce (fun _ => [mk 1 'z' none none]) fuel
        [mk 1 'x' none none, mk 2 'y' none none] = none := by
  refine ⟨by rfl, by rfl, fun fuel => ?_⟩
  have key : ∀ (fuel i : Nat) (a b : huffman_tree_t),
      huffman_tree_list_reduce_loop (fun _ => [mk 1 'z' none none]) fuel i [a, b] = none := by
    intro fuel
    induction fuel with
    | zero => intro i a b; rfl
    | succ fuel ih =>
      intro i a b
      rw [huffman_tree_list_reduce_loop]
      exact ih (i + 1) _ _
  exact key fuel 0 _ _

/-- C14 (as amended): for a tree in which every node is a leaf without children or a
node with letter `' '` and two children (the shape of the trees built on zeroed
blocks, `build_tree_zeroed_shape`) and a target character that is the letter of
no leaf and, unless the tree is a bare leaf, is not `' '`, the search
`encode_traverse` returns the failure result, whatever the buffer holds. -/
theorem encode_traverse_fails_on_absent (tree : huffman_tree_t)
    (hwf : well_formed tree = true) (target : Char)
    (habs : target ∉ (leaf_paths tree).map Prod.fst)
    (hsp : target = ' ' → tree.left.isNone = true) (acc : List Char) :
    (encode_traverse acc target tree).1 = false := by
  have hsh := Shaped_of_well_formed tree hwf
  by_cases hc : target = ' '
  · have hl := hsp hc
    cases hsh with
    | leaf c x =>
      have hx : ¬ x = target := by
        intro e
        apply habs
        simp [leaf_paths, e]
      simp [encode_traverse_mk, hx]
    | node c a b _ _ => simp [left] at hl
  · obtain ⟨-, -, k, -, he⟩ := encode_traverse_absent_shaped hsh target hc habs
    rw [he]

/-- Witness for `encode_traverse_fails_on_absent`: the tree that the program builds
from the source `"aabbc"` on zeroed blocks, the target `'x'`, a buffer holding
`"RR"`. -/
theorem encode_traverse_fails_on_absent_witness :
    build_tree zeroed_fields zeroed_next 2 ['a', 'a', 'b', 'b', 'c'] = some [tree_aabbc] ∧
    (encode_traverse ['R', 'R'] 'x' tree_aabbc).1 = false :=
  ⟨by rfl, encode_traverse_fails_on_absent tree_aabbc
    (build_tree_zeroed_shape 2 ['a', 'a', 'b', 'b', 'c'] tree_aabbc (by rfl)).1 'x' (by decide)
    (fun h => absurd h (by decide)) ['R', 'R']⟩

/-- C14 fails as stated.  In the tree built from the source `"ab"` (on zeroed
blocks) no leaf has the letter `' '`, yet the search for `' '` succeeds at the
root, whose letter is `' '`, and returns the buffer. -/
theorem encode_traverse_fails_on_absent_counterexample :
    build_tree zeroed_fields zeroed_next 1 ['a', 'b'] = some [tree_ab] ∧
      ' ' ∉ (leaf_paths tree_ab).map Prod.fst ∧
      encode_traverse [] ' ' tree_ab = (true, []) ∧
      (encode_traverse [] ' ' tree_ab).1 ≠ false := by
  refine ⟨by rfl, by decide, by rfl, by decide⟩

/-- C15: the scenario `"aabbc"` fails on the program at its last step.  On zeroed
blocks `nub` gives `"abc"`, the builder `[c:1, a:2, b:2]`, the first merge
`[b:2, (c+a):3]`, the second the tree of count 5 with left child `b` and right
child `(c+a)`.  With the allocator handing back for `acc` the block just freed,
the encoding of `"abc"` is `"RRRRLRRLRL"`, which is decoded to `"aababc"`: no
number of iterations of the decoder returns `"abc"`. -/
theorem scenario_aabbc_fails_on_reused_acc :
    nub ['a', 'a', 'b', 'b', 'c'] = ['a', 'b', 'c'] ∧
    huffman_tree_list_build zeroed_fields ['a', 'a', 'b', 'b', 'c'] ['a', 'b', 'c'] =
      [mk 1 'c' none none, mk 2 'a' none none, mk 2 'b' none none] ∧
    huffman_tree_list_reduce_step []
        [mk 1 'c' none none, mk 2 'a' none none, mk 2 'b' none none] =
      [mk 2 'b' none none,
        mk 3 ' ' (some (mk 1 'c' none none)) (some (mk 2 'a' none none))] ∧
    huffman_tree_list_reduce_step []
        [mk 2 'b' none none,
          mk 3 ' ' (some (mk 1 'c' none none)) (some (mk 2 'a' none none))] =
      [tree_aabbc] ∧
    build_tree zeroed_fields zeroed_next 2 ['a', 'a', 'b', 'b', 'c'] = some [tree_aabbc] ∧
    (∀ MAX_STRING_LENGTH : Nat, 11 ≤ MAX_STRING_LENGTH →
      huffman_tree_encode MAX_STRING_LENGTH [] (acc_reused tree_aabbc ['a', 'b', 'c'])
          tree_aabbc ['a', 'b', 'c'] =
        some ['R', 'R', 'R', 'R', 'L', 'R', 'R', 'L', 'R', 'L']) ∧
    (∀ fuel : Nat, 6 ≤ fuel →
      huffman_tree_decode fuel tree_aabbc ['R', 'R', 'R', 'R', 'L', 'R', 'R', 'L', 'R', 'L'] =
        some ['a', 'a', 'b', 'a', 'b', 'c']) ∧
    ¬ ∃ fuel : Nat,
      huffman_tree_decode fuel tree_aabbc ['R', 'R', 'R', 'R', 'L', 'R', 'R', 'L', 'R', 'L'] =
        some ['a', 'b', 'c'] := by
  have hdec : huffman_tree_decode 6 tree_aabbc
      ['R', 'R', 'R', 'R', 'L', 'R', 'R', 'L', 'R', 'L'] =
      some ['a', 'a', 'b', 'a', 'b', 'c'] := by rfl
  have henc : huffman_tree_encode_loop (acc_reused tree_aabbc ['a', 'b', 'c']) tree_aabbc 0 [] 0
      ['a', 'b', 'c'] = (['R', 'R', 'R', 'R', 'L', 'R', 'R', 'L', 'R', 'L'], 11) := by rfl
  refine ⟨by rfl, by rfl, by rfl, by rfl, by rfl, fun MAX hMAX => ?_,
    fun fuel hfuel => huffman_tree_decode_of_le _ _ _ _ _ hdec hfuel, ?_⟩
  · simp only [huffman_tree_encode, henc]
    rw [if_pos hMAX]
  · rintro ⟨fuel, h⟩
    have := huffman_tree_decode_unique _ _ _ _ _ _ hdec h
    exact absurd this (by decide)

/-- C16: the degenerate case fails on the program in its second part.  On a list of
one entry the reducer returns the entry unchanged without an iteration.  For
the source `"aaaa"`, with the block of the leaf holding a stale `right` pointer
to a leaf `z:7`, the tree returned has the letter `a` and the count 4 but has a
child: it is not a bare leaf. -/
theorem single_letter_tree_has_stale_child :
    (∀ (stale : Nat → huffman_tree_list_t) (fuel : Nat) (a : huffman_tree_t),
      huffman_tree_list_reduce stale fuel [a] = some [a]) ∧
    (∀ fuel : Nat, build_tree stale_right_child zeroed_next fuel ['a', 'a', 'a', 'a'] =
      some [mk 4 'a' none (some (mk 7 'z' none none))]) ∧
    (mk 4 'a' none (some (mk 7 'z' none none))).right.isSome = true := by
  refine ⟨fun stale fuel a => ?_, fun fuel => ?_, by rfl⟩
  · cases fuel <;> rfl
  · cases fuel <;> rfl

/-- C17: the loop invariant of the reducer fails on the program.  Started on the
ascending list `[a:1, b:1]`, with the cell allocated by `huffman_tree_list_add`
holding a stale `next` pointer to a cell with the leaf `z:1`: the first pass
makes the node of count 2 with left child `a` and right child `b`, and the
working list at the start of the next iteration is `[(a+b):2, z:1]`, which is
not ascending.  Apart from that, on the ascending list `[a:1, b:2147483647]` the
`int` addition gives the merged node the count `-2147483648`, not the sum. -/
theorem huffman_tree_list_reduce_unsorted_on_stale_next :
    [mk 1 'a' none none, mk 1 'b' none none].Chain' (fun a b => a.count ≤ b.count) ∧
    huffman_tree_list_reduce_step [mk 1 'z' none none]
        [mk 1 'a' none none, mk 1 'b' none none] =
      [mk 2 ' ' (some (mk 1 'a' none none)) (some (mk 1 'b' none none)),
        mk 1 'z' none none] ∧
    (∀ (stale : Nat → huffman_tree_list_t) (fuel : Nat),
      huffman_tree_list_reduce stale (fuel + 1) [mk 1 'a' none none, mk 1 'b' none none] =
        huffman_tree_list_reduce_loop stale fuel 1
          (huffman_tree_list_reduce_step (stale 0)
            [mk 1 'a' none none, mk 1 'b' none none])) ∧
    ¬ (huffman_tree_list_reduce_step [mk 1 'z' none none]
        [mk 1 'a' none none, mk 1 'b' none none]).Chain' (fun a b => a.count ≤ b.count) ∧
    [mk 1 'a' none none, mk 2147483647 'b' none none].Chain' (fun a b => a.count ≤ b.count) ∧
    huffman_tree_list_reduce_step [] [mk 1 'a' none none, mk 2147483647 'b' none none] =
      [mk (-2147483648) ' ' (some (mk 1 'a' none none))
        (some (mk 2147483647 'b' none none))] ∧
    (-2147483648 : Int) ≠ 1 + 2147483647 := by
  have e : huffman_tree_list_reduce_step [mk 1 'z' none none]
      [mk 1 'a' none none, mk 1 'b' none none] =
      [mk 2 ' ' (some (mk 1 'a' none none)) (some (mk 1 'b' none none)),
        mk 1 'z' none none] := by rfl
  refine ⟨by simp [count], e, fun stale fuel => by rfl, ?_, by simp [count], by rfl,
    by decide⟩
  rw [e]
  simp [count]

/-- C18: the restricted round trip fails on the program.  Source `"aabbc"` (three
distinct characters, no `' '`), string `"cab"`, the tree built on zeroed blocks
and the allocator handing back for `acc` the block just freed: the encoding is
`"RLRLRRRLRRL"`, which is decoded to `"ccacab"`; no number of iterations of the
decoder returns `"cab"`. -/
theorem restricted_round_trip_fails_on_reused_acc :
    build_tree zeroed_fields zeroed_next 2 ['a', 'a', 'b', 'b', 'c'] = some [tree_aabbc] ∧
    2 ≤ ['a', 'a', 'b', 'b', 'c'].toFinset.card ∧ ' ' ∉ ['a', 'a', 'b', 'b', 'c'] ∧
    (∀ c ∈ ['c', 'a', 'b'], c ∈ ['a', 'a', 'b', 'b', 'c']) ∧
    (∀ MAX_STRING_LENGTH : Nat, 12 ≤ MAX_STRING_LENGTH →
      huffman_tree_encode MAX_STRING_LENGTH [] (acc_reused tree_aabbc ['c', 'a', 'b'])
          tree_aabbc ['c', 'a', 'b'] =
        some ['R', 'L', 'R', 'L', 'R', 'R', 'R', 'L', 'R', 'R', 'L']) ∧
    (∀ fuel : Nat, 6 ≤ fuel →
      huffman_tree_decode fuel tree_aabbc
          ['R', 'L', 'R', 'L', 'R', 'R', 'R', 'L', 'R', 'R', 'L'] =
        some ['c', 'c', 'a', 'c', 'a', 'b']) ∧
    ¬ ∃ fuel : Nat,
      huffman_tree_decode fuel tree_aabbc
          ['R', 'L', 'R', 'L', 'R', 'R', 'R', 'L', 'R', 'R', 'L'] = some ['c', 'a', 'b'] := by
  have hdec : huffman_tree_decode 6 tree_aabbc
      ['R', 'L', 'R', 'L', 'R', 'R', 'R', 'L', 'R', 'R', 'L'] =
      some ['c', 'c', 'a', 'c', 'a', 'b'] := by rfl
  have henc : huffman_tree_encode_loop (acc_reused tree_aabbc ['c', 'a', 'b']) tree_aabbc 0 [] 0
      ['c', 'a', 'b'] = (['R', 'L', 'R', 'L', 'R', 'R', 'R', 'L', 'R', 'R', 'L'], 12) := by rfl
  refine ⟨by rfl, by decide, by decide, by decide, fun MAX hMAX => ?_,
    fun fuel hfuel => huffman_tree_decode_of_le _ _ _ _ _ hdec hfuel, ?_⟩
  · simp only [huffman_tree_encode, henc]
    rw [if_pos hMAX]
  · rintro ⟨fuel, h⟩
    have := huffman_tree_decode_unique _ _ _ _ _ _ hdec h
    exact absurd this (by decide)

/-- C19 (as amended): for a tree in which every node is a leaf without children or a
node with letter `' '` and two children (the shape of the trees built on zeroed
blocks, `build_tree_zeroed_shape`), with an internal root and no leaf with the
letter `' '`: a
call of `decode_traverse` at the root on a code that starts with the path of a
leaf returns the letter of that leaf and a count equal to the length of the
path, which is at least 1; hence on a concatenation of leaf paths the loop of
`huffman_tree_decode` ends within as many iterations as the code has path
symbols, and emits one character per path, at most as many as there are path
symbols.  On a tree that is a bare leaf with a letter other than `' '`,
`decode_traverse` returns count 0, an iteration leaves a non-empty code as it
is, and no number of iterations ends the loop. -/
theorem decode_progress (tree : huffman_tree_t) (hwf : well_formed tree = true)
    (hroot : tree.left.isSome = true) (hns : ∀ q ∈ leaf_paths tree, q.1 ≠ ' ') :
    (∀ q ∈ leaf_paths tree, ∀ rest : List Char,
      decode_traverse (q.2 ++ rest) tree 0 = some ⟨q.2.length, q.1⟩ ∧ 1 ≤ q.2.length) ∧
    (∀ seq : List (Char × List Char), (∀ q ∈ seq, q ∈ leaf_paths tree) →
      ∀ fuel : Nat, (seq.map Prod.snd).flatten.length ≤ fuel →
        huffman_tree_decode fuel tree (seq.map Prod.snd).flatten = some (seq.map Prod.fst) ∧
        (seq.map Prod.fst).length ≤ (seq.map Prod.snd).flatten.length) ∧
    (∀ (n : Int) (x : Char), x ≠ ' ' → ∀ code : List Char,
      decode_traverse code (mk n x none none) 0 = some ⟨0, x⟩ ∧
      (code ≠ [] →
        (∀ result : List Char,
          huffman_tree_decode_step (mk n x none none) code result =
            some (code, result ++ [x])) ∧
        ∀ fuel : Nat, huffman_tree_decode fuel (mk n x none none) code = none)) := by
  have hsh := Shaped_of_well_formed tree hwf
  have hne := hsh.paths_ne_nil hroot
  refine ⟨fun q hq rest => ⟨?_, ?_⟩, fun seq hseq fuel hfuel => ?_, fun n x hx code => ⟨?_, ?_⟩⟩
  · have := decode_traverse_shaped hsh q.1 (hns q hq) q.2 hq (q.2 ++ rest) 0 rest (by simp)
    simpa using this
  · exact List.length_pos.2 (hne q hq)
  · have hlen := length_le_length_flatten seq (fun q hq => hne q (hseq q hq))
    have := huffman_tree_decode_loop_shaped hsh hne seq (fun q hq => ⟨hseq q hq, hns q (hseq q hq)⟩)
      fuel (le_trans hlen hfuel) []
    exact ⟨by simpa [huffman_tree_decode] using this, by simpa using hlen⟩
  · simp [decode_traverse_mk, hx]
  · intro hcode
    obtain ⟨c, code', rfl⟩ := List.exists_cons_of_ne_nil hcode
    refine ⟨fun result => ?_, fun fuel => huffman_tree_decode_loop_leaf n x hx fuel c code' []⟩
    simp [huffman_tree_decode_step, decode_traverse_mk, hx]

/-- Witness for `decode_progress`: the tree that the program builds from the source
`"aabbc"` on zeroed blocks, the leaf `c` with path `"RL"`, followed by `"L"`. -/
theorem decode_progress_witness :
    build_tree zeroed_fields zeroed_next 2 ['a', 'a', 'b', 'b', 'c'] = some [tree_aabbc] ∧
    decode_traverse (['R', 'L'] ++ ['L']) tree_aabbc 0 = some ⟨['R', 'L'].length, 'c'⟩ ∧
      1 ≤ ['R', 'L'].length :=
  ⟨by rfl, (decode_progress tree_aabbc
    (build_tree_zeroed_shape 2 ['a', 'a', 'b', 'b', 'c'] tree_aabbc (by rfl)).1 (by rfl)
    (by decide)).1 ('c', ['R', 'L']) (by decide) ['L']⟩

/-- C19 fails as stated.  The tree built from the source `" "` (on zeroed blocks) is
a bare leaf with the letter `' '`; `decode_traverse` takes it for an internal
node and follows a `NULL` child instead of returning count 0. -/
theorem decode_progress_counterexample :
    build_tree zeroed_fields zeroed_next 0 [' '] = some [mk 1 ' ' none none] ∧
      (mk 1 ' ' none none).left.isNone = true ∧ (mk 1 ' ' none none).right.isNone = true ∧
      decode_traverse ['L'] (mk 1 ' ' none none) 0 = none ∧
      decode_traverse ['L'] (mk 1 ' ' none none) 0 ≠ some ⟨0, ' '⟩ := by
  refine ⟨by rfl, by rfl, by rfl, by rfl, ?_⟩
  have e : decode_traverse ['L'] (mk 1 ' ' none none) 0 = none := by rfl
  rw [e]
  exact fun h => Option.noConfusion h

/-- C20: the encoding of an absent symbol fails on the program.  The tree built from
the source `"aabbc"` on zeroed blocks has an internal root and no leaf `x`; its
rightmost leaf is `a` with the path `"RR"`.  The search for `x` fails and leaves
`"RR"` in an empty buffer, but when the block handed out for `result` holds the
stale text `"L"`, `huffman_tree_encode` returns `"LRR"`; when the block handed out
for `acc` holds `"L"`, the failed search leaves `"LRR"` in it and that is
returned.  `"LRR"` is not the path of the rightmost leaf, not a string of `'R'`
only, and not the path of any leaf. -/
theorem encode_absent_keeps_stale_text :
    build_tree zeroed_fields zeroed_next 2 ['a', 'a', 'b', 'b', 'c'] = some [tree_aabbc] ∧
    tree_aabbc.left.isSome = true ∧ 'x' ≠ ' ' ∧ 'x' ∉ (leaf_paths tree_aabbc).map Prod.fst ∧
    (leaf_paths tree_aabbc).getLast? = some ('a', ['R', 'R']) ∧
    encode_traverse [] 'x' tree_aabbc = (false, ['R', 'R']) ∧
    encode_traverse ['L'] 'x' tree_aabbc = (false, ['L', 'R', 'R']) ∧
    (∀ MAX_STRING_LENGTH : Nat, 4 ≤ MAX_STRING_LENGTH →
      huffman_tree_encode MAX_STRING_LENGTH ['L'] (fun _ => []) tree_aabbc ['x'] =
        some ['L', 'R', 'R'] ∧
      huffman_tree_encode MAX_STRING_LENGTH [] (fun _ => ['L']) tree_aabbc ['x'] =
        some ['L', 'R', 'R']) ∧
    ['L', 'R', 'R'] ≠ ['R', 'R'] ∧
    (∀ k : Nat, ['L', 'R', 'R'] ≠ List.replicate k 'R') ∧
    ['L', 'R', 'R'] ∉ (leaf_paths tree_aabbc).map Prod.snd := by
  have h1 : huffman_tree_encode_loop (fun _ => []) tree_aabbc 0 ['L'] 0 ['x'] =
      (['L', 'R', 'R'], 4) := by rfl
  have h2 : huffman_tree_encode_loop (fun _ => ['L']) tree_aabbc 0 [] 0 ['x'] =
      (['L', 'R', 'R'], 4) := by rfl
  refine ⟨by rfl, by rfl, by decide, by decide, by rfl, by rfl, by rfl,
    fun MAX hMAX => ⟨?_, ?_⟩, by decide, fun k h => ?_, by decide⟩
  · simp only [huffman_tree_encode, h1]
    rw [if_pos hMAX]
  · simp only [huffman_tree_encode, h2]
    rw [if_pos hMAX]
  · have hmem : 'L' ∈ List.replicate k 'R' := by
      rw [← h]
      simp
    exact absurd (List.eq_of_mem_replicate hmem) (by decide)

end Huffman
